import Mathlib

/-!
Verification of the event-aggregation pipeline of `list_markets.py`
(`PolymarketClient.process_events` and the `Event` dataclass).

The embedding models the raw API records as JSON-like values, Python's
truthiness, `dict.get`, `float()` coercion, `datetime.strptime` with the
`%Y-%m-%d` format, `datetime` comparison on the proleptic-Gregorian ordinal
scale, the insertion-ordered `unique_events` dict, and the final stable
`sorted(..., key=volume, reverse=True)`.  Uncaught Python exceptions
(`TypeError` from `strptime` on a non-string, `AttributeError` from `.get`
on a non-dict, `TypeError` from hashing an unhashable dict key) are modelled
with `Except`.
-/

namespace Polymarket

/-- Hashable Python scalar values: the only values the code can ever use as
`unique_events` keys, since Python raises `TypeError` before inserting an
unhashable (list/dict) key. -/
inductive JScalar where
  | null : JScalar
  | bool (b : Bool) : JScalar
  | num (q : ℚ) : JScalar
  | str (s : String) : JScalar
  deriving DecidableEq, Repr

/-- JSON values as delivered by `response.json()`: scalars, arrays, objects. -/
inductive JVal where
  | scalar (s : JScalar) : JVal
  | arr (elems : List JVal) : JVal
  | obj (fields : List (String × JVal)) : JVal

/-- Python `None` as a `JVal`. -/
def JVal.null : JVal := .scalar .null

/-- A JSON string as a `JVal`. -/
def JVal.str (s : String) : JVal := .scalar (.str s)

/-- A JSON number as a `JVal`. -/
def JVal.num (q : ℚ) : JVal := .scalar (.num q)

/-- A JSON boolean as a `JVal`. -/
def JVal.bool (b : Bool) : JVal := .scalar (.bool b)

/-- Python truthiness of a scalar. -/
def JScalar.truthy : JScalar → Bool
  | .null => false
  | .bool b => b
  | .num q => q != 0
  | .str s => s != ""

/-- Python truthiness: `None`/`False`/`0`/empty containers are falsy. -/
def JVal.truthy : JVal → Bool
  | .scalar s => s.truthy
  | .arr l => !l.isEmpty
  | .obj l => !l.isEmpty

/-- First-match lookup in a JSON object.  JSON objects decoded by Python have
unique keys, so first-match lookup agrees with Python dict lookup. -/
def jlookup : List (String × JVal) → String → Option JVal
  | [], _ => none
  | (k, v) :: rest, key => if k = key then some v else jlookup rest key

/-- Python `d.get(key)` (default `None`). -/
def dictGet (fields : List (String × JVal)) (key : String) : JVal :=
  (jlookup fields key).getD .null

/-- Python `d.get(key, dflt)`. -/
def dictGetD (fields : List (String × JVal)) (key : String) (dflt : JVal) : JVal :=
  (jlookup fields key).getD dflt

/-- Numeric value of a digit run, most significant first. -/
def natOfDigits (l : List Char) : ℕ :=
  l.foldl (fun n c => 10 * n + (c.toNat - 48)) 0

/-- Model of CPython `float(s)` on strings: optional sign, decimal mantissa
with optional fractional part (at least one digit overall), optional
`e`/`E` exponent with its own optional sign and at least one digit, and the
whole string must be consumed; anything else raises `ValueError`. -/
def parseFloat (s : String) : Option ℚ :=
  let cs := s.toList
  let signed : ℚ × List Char :=
    match cs with
    | '+' :: t => (1, t)
    | '-' :: t => (-1, t)
    | _ => (1, cs)
  let ip := signed.2.takeWhile Char.isDigit
  let r1 := signed.2.dropWhile Char.isDigit
  let fracRest : List Char × List Char :=
    match r1 with
    | '.' :: r2 => (r2.takeWhile Char.isDigit, r2.dropWhile Char.isDigit)
    | _ => ([], r1)
  let fp := fracRest.1
  if ip.isEmpty && fp.isEmpty then none
  else
    let mantissa : ℚ :=
      signed.1 * ((natOfDigits ip : ℚ) + (natOfDigits fp : ℚ) / (10 : ℚ) ^ fp.length)
    match fracRest.2 with
    | [] => some mantissa
    | e :: r4 =>
      if e = 'e' ∨ e = 'E' then
        let esigned : Bool × List Char :=
          match r4 with
          | '+' :: t => (false, t)
          | '-' :: t => (true, t)
          | _ => (false, r4)
        let es := esigned.2.takeWhile Char.isDigit
        let r5 := esigned.2.dropWhile Char.isDigit
        if es.isEmpty ∨ ¬ r5.isEmpty then none
        else if esigned.1 then some (mantissa / (10 : ℚ) ^ natOfDigits es)
        else some (mantissa * (10 : ℚ) ^ natOfDigits es)
      else none

/-- Python `float(x)` coercion of a JSON value.  The code wraps every call in
`try/except (ValueError, TypeError)`, so both failure modes collapse into a
single error. -/
def pyFloat : JVal → Except Unit ℚ
  | .scalar (.num q) => .ok q
  | .scalar (.bool b) => .ok (if b then 1 else 0)
  | .scalar (.str s) =>
    match parseFloat s with
    | some q => .ok q
    | none => .error ()
  | _ => .error ()

/-- A calendar date as produced by `datetime.strptime(s, "%Y-%m-%d")`. -/
structure Date where
  year : ℕ
  month : ℕ
  day : ℕ
  deriving DecidableEq, Repr

/-- Gregorian leap-year rule, as in Python's `calendar`/`datetime`. -/
def isLeapYear (y : ℕ) : Bool :=
  (y % 4 == 0 && y % 100 != 0) || y % 400 == 0

/-- Length of month `m` of year `y`. -/
def daysInMonth (y m : ℕ) : ℕ :=
  if m = 2 then (if isLeapYear y then 29 else 28)
  else if m = 4 ∨ m = 6 ∨ m = 9 ∨ m = 11 then 30
  else 31

/-- Days in year `y` strictly before month `m`. -/
def daysBeforeMonth (y m : ℕ) : ℕ :=
  (List.range (m - 1)).foldl (fun acc i => acc + daysInMonth y (i + 1)) 0

/-- `datetime.toordinal`: day number in the proleptic Gregorian calendar,
with 0001-01-01 being day 1 (CPython's `_ymd2ord`). -/
def toOrdinal (d : Date) : ℕ :=
  365 * (d.year - 1) + (d.year - 1) / 4 - (d.year - 1) / 100 + (d.year - 1) / 400
    + daysBeforeMonth d.year d.month + d.day

/-- Split a character list at every dash, like `str.split` at a dash. -/
def splitDash : List Char → List (List Char)
  | [] => [[]]
  | '-' :: rest => [] :: splitDash rest
  | c :: rest =>
    match splitDash rest with
    | [] => [[c]]
    | g :: gs => (c :: g) :: gs

/-- All characters are ASCII digits. -/
def allDigits (l : List Char) : Bool := l.all Char.isDigit

/-- Model of `datetime.strptime(s, "%Y-%m-%d")`: CPython's `_strptime`
matches `%Y` as exactly four digits, `%m` as one or two digits valued 1-12,
`%d` as one or two digits valued 1-31, requires the whole string to match,
and the `datetime` constructor then rejects year 0 and days past the end of
the month (`ValueError`, which the caller catches). -/
def parseYMD (s : String) : Option Date :=
  match splitDash s.toList with
  | [ys, ms, ds] =>
    if ys.length = 4 ∧ allDigits ys = true
        ∧ (ms.length = 1 ∨ ms.length = 2) ∧ allDigits ms = true
        ∧ (ds.length = 1 ∨ ds.length = 2) ∧ allDigits ds = true then
      let y := natOfDigits ys
      let mo := natOfDigits ms
      let dy := natOfDigits ds
      if 1 ≤ y ∧ 1 ≤ mo ∧ mo ≤ 12 ∧ 1 ≤ dy ∧ dy ≤ daysInMonth y mo then
        some ⟨y, mo, dy⟩
      else none
    else none
  | _ => none

/-- Timestamp (in seconds) of midnight UTC on date `d`, on the ordinal
scale that `datetime` comparisons use.  `now` and the horizon deadline
live on the same scale; a date-only `datetime` sits at second 0 of its
day, so `end_date > now + timedelta(days=days_filter)` is exactly
`dateTs d > nowTs + days * 86400`. -/
def dateTs (d : Date) : ℤ := (toOrdinal d : ℤ) * 86400

/-- The `Event` dataclass of `list_markets.py`.  `title` keeps whatever JSON
value the record carried (Python dataclasses do not enforce types at
runtime); `slug` is always the hashable grouping key. -/
structure Event where
  title : JVal
  volume : ℚ
  end_date : String
  url : String
  slug : JScalar

/-- Uncaught Python exceptions that can escape `process_events`. -/
inductive PyErr where
  | typeError : PyErr
  | attributeError : PyErr
  deriving DecidableEq, Repr

/-- Python `str()` of the hashable scalars that can reach the f-string URL
interpolation (unhashable values raise beforehand). -/
def pyStr : JScalar → String
  | .str s => s
  | .bool b => if b then "True" else "False"
  | .num q => if q.den = 1 then toString q.num else toString q
  | .null => "None"

/-- Python `a or b`. -/
def pyOr (a b : JVal) : JVal := if a.truthy then a else b

/-- Python hashability: scalars are hashable, lists and dicts raise
`TypeError` when used as dict keys. -/
def toHashable : JVal → Option JScalar
  | .scalar s => some s
  | _ => none

/-- The fallback branch of the `process_events` loop (lines 132-147), for a
market without a truthy embedded event slug: group by the market's own
`slug`, with the market's own `question`/`volumeNum` as representative. -/
def fallbackEntry (mfields : List (String × JVal)) (end_date_iso : String) :
    Except PyErr (Option (JScalar × Event)) :=
  let slug := dictGet mfields ("slug")
  if slug.truthy then
    match toHashable slug with
    | none => .error .typeError
    | some k =>
      let vol := ((pyFloat (dictGetD mfields ("volumeNum") (.num 0))).toOption).getD 0
      .ok (some (k,
        { title := dictGetD mfields ("question") (.str "Unknown Market")
          volume := vol
          end_date := end_date_iso
          url := "https://polymarket.com/market/" ++ pyStr k
          slug := k }))
  else .ok none

/-- One iteration of the `process_events` loop (lines 89-147) on a single
raw record: the `(key, Event)` entry this record would insert, `none` when
the record is skipped, or the uncaught exception it raises.  The first-wins
insertion into `unique_events` is applied by `step`; membership testing in
the dict cannot change the entry computed here, and hashing the key (which
is what raises on unhashable keys) happens before any insertion. -/
def extractEntry (nowTs days : ℤ) (market : JVal) : Except PyErr (Option (JScalar × Event)) :=
  match market with
  | .obj mfields =>
    let end_date_iso := dictGet mfields ("endDateIso")
    if end_date_iso.truthy then
      match end_date_iso with
      | .scalar (.str ediso) =>
        match parseYMD ediso with
        | some end_date =>
          if dateTs end_date > nowTs + days * 86400 then .ok none
          else
            match dictGetD mfields ("events") (.arr []) with
            | .arr (ev0 :: _) =>
              match ev0 with
              | .obj efields =>
                let event_slug := dictGet efields ("slug")
                let event_title := dictGet efields ("title")
                let event_volume :=
                  ((pyFloat (dictGetD efields ("volume") (.num 0))).toOption).getD 0
                if event_slug.truthy then
                  match toHashable event_slug with
                  | none => .error .typeError
                  | some k =>
                    .ok (some (k,
                      { title := pyOr event_title (.str "Unknown Event")
                        volume := event_volume
                        end_date := ediso
                        url := "https://polymarket.com/event/" ++ pyStr k
                        slug := k }))
                else fallbackEntry mfields ediso
              | _ => .error .attributeError
            | _ => fallbackEntry mfields ediso
        | none => .ok none
      | _ => .error .typeError
    else .ok none
  | _ => .error .attributeError

/-- The `unique_events` dict.  A Python 3.7+ dict preserves insertion order,
modelled as an association list with new keys appended at the end. -/
abbrev UniqueEvents := List (JScalar × Event)

/-- Dict lookup in `unique_events`. -/
def lookupUE : UniqueEvents → JScalar → Option Event
  | [], _ => none
  | (k, e) :: rest, key => if k = key then some e else lookupUE rest key

/-- One loop iteration of `process_events`: compute the record's entry and
insert it only when its key is unseen (first-seen wins, lines 124 and 135). -/
def step (nowTs days : ℤ) (st : UniqueEvents) (market : JVal) : Except PyErr UniqueEvents :=
  match extractEntry nowTs days market with
  | .error err => .error err
  | .ok none => .ok st
  | .ok (some (k, ev)) =>
    .ok (if (lookupUE st k).isSome then st else st ++ [(k, ev)])

/-- The `process_events` loop run from an arbitrary dict state. -/
def aggAux (nowTs days : ℤ) : UniqueEvents → List JVal → Except PyErr UniqueEvents
  | st, [] => .ok st
  | st, m :: rest =>
    match step nowTs days st m with
    | .error err => .error err
    | .ok st' => aggAux nowTs days st' rest

/-- The aggregation phase of `process_events`: the loop of lines 89-147 run
over the whole input starting from the empty `unique_events` dict. -/
def aggregate (nowTs days : ℤ) (markets : List JVal) : Except PyErr UniqueEvents :=
  aggAux nowTs days [] markets

/-- Insert an event below every already-placed event of greater-or-equal
volume.  Repeated left-to-right this realises the unique stable descending
order of Python's `sorted(values, key=lambda x: x.volume, reverse=True)`
(ties keep insertion order). -/
def insertByVolume (e : Event) : List Event → List Event
  | [] => [e]
  | x :: xs => if e.volume ≤ x.volume then x :: insertByVolume e xs else e :: x :: xs

/-- Stable sort by volume, descending: line 150 of `list_markets.py`. -/
def sortByVolume (l : List Event) : List Event :=
  l.foldl (fun acc e => insertByVolume e acc) []

/-- `process_events(markets, days_filter)`: aggregate into the
insertion-ordered dict, then return its values sorted by volume descending.
Returns `.error` exactly when the loop hits an uncaught exception. -/
def process_events (nowTs days : ℤ) (markets : List JVal) : Except PyErr (List Event) :=
  match aggregate nowTs days markets with
  | .error err => .error err
  | .ok st => .ok (sortByVolume (st.map Prod.snd))

/-- The event contributed by the first record of the list whose extraction
yields key `k`: the record whose data wins the first-seen dedup. -/
def firstEntry (nowTs days : ℤ) : List JVal → JScalar → Option Event
  | [], _ => none
  | m :: rest, k =>
    match extractEntry nowTs days m with
    | .ok (some (k', e)) => if k' = k then some e else firstEntry nowTs days rest k
    | _ => firstEntry nowTs days rest k

/-- The grouping keys of the input in first-seen order: the insertion order
of the `unique_events` dict, accumulated left to right. -/
def insertionKeys (nowTs days : ℤ) : List JScalar → List JVal → List JScalar
  | acc, [] => acc
  | acc, m :: rest =>
    match extractEntry nowTs days m with
    | .ok (some (k, _)) =>
      insertionKeys nowTs days (if k ∈ acc then acc else acc ++ [k]) rest
    | _ => insertionKeys nowTs days acc rest

/-- Sample record: a market carrying embedded event data (slug `e1`). -/
def mfEvent1 : List (String × JVal) :=
  [("endDateIso", .str "0001-01-01"),
   ("events", .arr [.obj [("slug", .str "e1"), ("title", .str "T1"), ("volume", .num 5)]])]

/-- Sample record `mfEvent1` as a JSON value. -/
def mEvent1 : JVal := .obj mfEvent1

/-- Sample record: a second market under the same event slug `e1` with a
different title and volume. -/
def mEvent1b : JVal :=
  .obj [("endDateIso", .str "0001-01-01"),
    ("events", .arr [.obj [("slug", .str "e1"), ("title", .str "T2"), ("volume", .num 9)]])]

/-- The event `mEvent1` produces. -/
def evE1 : Event :=
  { title := .str "T1", volume := 5, end_date := "0001-01-01",
    url := "https://polymarket.com/event/e1", slug := .str "e1" }

/-- Sample record: a market without embedded event data, own slug `m3`. -/
def mfMarket3 : List (String × JVal) :=
  [("endDateIso", .str "0001-01-01"), ("slug", .str "m3"),
   ("question", .str "Q3"), ("volumeNum", .num 50)]

/-- Sample record `mfMarket3` as a JSON value. -/
def mMarket3 : JVal := .obj mfMarket3

/-- The event `mMarket3` produces. -/
def evM3 : Event :=
  { title := .str "Q3", volume := 50, end_date := "0001-01-01",
    url := "https://polymarket.com/market/m3", slug := .str "m3" }

/-- Sample record: a market whose embedded event slug `m3` collides with the
own slug of `mMarket3` (cross-path key collision). -/
def mCross : JVal :=
  .obj [("endDateIso", .str "0001-01-02"),
    ("events", .arr [.obj [("slug", .str "m3"), ("title", .str "TX"), ("volume", .num 7)]])]

/-- The event `mCross` would produce were its key unseen. -/
def evCross : Event :=
  { title := .str "TX", volume := 7, end_date := "0001-01-02",
    url := "https://polymarket.com/event/m3", slug := .str "m3" }

/-- Sample record whose `events` list holds a bare string instead of a dict. -/
def mBadHead : JVal :=
  .obj [("endDateIso", .str "0001-01-01"), ("events", .arr [.str "oops"])]

/-- Sample record with an `id` but no `slug` and no embedded event data. -/
def mfNoSlugId : List (String × JVal) :=
  [("id", .str "m1"), ("question", .str "Q"), ("volumeNum", .num 5),
   ("endDateIso", .str "0001-01-01")]

/-- Sample record `mfNoSlugId` as a JSON value. -/
def mNoSlugId : JVal := .obj mfNoSlugId

/-- Sample record whose `volumeNum` is an unparseable string. -/
def mfBadVol : List (String × JVal) :=
  [("endDateIso", .str "0001-01-01"), ("slug", .str "m4"),
   ("question", .str "Q4"), ("volumeNum", .str "abc")]

/-- Sample embedded event whose `volume` is an unparseable string. -/
def efBadVol : List (String × JVal) :=
  [("slug", .str "e9"), ("title", .str "T9"), ("volume", .str "xyz")]

/-- Sample record carrying `efBadVol` as its embedded event. -/
def mfBadVolEvent : List (String × JVal) :=
  [("endDateIso", .str "0001-01-01"), ("events", .arr [.obj efBadVol])]

/-- Sample record with no end date at all. -/
def mMissingDate : JVal := .obj [("slug", .str "m5"), ("question", .str "Q5")]

/-- Sample record with an unparseable end-date string. -/
def mUnparseableDate : JVal :=
  .obj [("endDateIso", .str "not-a-date"), ("slug", .str "m6")]

/-- Sample ranking batch: volumes 100, 300, 300, 50 in input order. -/
def mVol100 : JVal :=
  .obj [("endDateIso", .str "0001-01-01"), ("slug", .str "v1"),
    ("question", .str "V1"), ("volumeNum", .num 100)]

/-- Second ranking record, volume 300. -/
def mVol300a : JVal :=
  .obj [("endDateIso", .str "0001-01-01"), ("slug", .str "v2"),
    ("question", .str "V2"), ("volumeNum", .num 300)]

/-- Third ranking record, also volume 300 (tie with `mVol300a`). -/
def mVol300b : JVal :=
  .obj [("endDateIso", .str "0001-01-01"), ("slug", .str "v3"),
    ("question", .str "V3"), ("volumeNum", .num 300)]

/-- Fourth ranking record, volume 50. -/
def mVol50 : JVal :=
  .obj [("endDateIso", .str "0001-01-01"), ("slug", .str "v4"),
    ("question", .str "V4"), ("volumeNum", .num 50)]

/-- The event `mVol100` produces. -/
def evV100 : Event :=
  { title := .str "V1", volume := 100, end_date := "0001-01-01",
    url := "https://polymarket.com/market/v1", slug := .str "v1" }

/-- The event `mVol300a` produces. -/
def evV300a : Event :=
  { title := .str "V2", volume := 300, end_date := "0001-01-01",
    url := "https://polymarket.com/market/v2", slug := .str "v2" }

/-- The event `mVol300b` produces. -/
def evV300b : Event :=
  { title := .str "V3", volume := 300, end_date := "0001-01-01",
    url := "https://polymarket.com/market/v3", slug := .str "v3" }

/-- The event `mVol50` produces. -/
def evV50 : Event :=
  { title := .str "V4", volume := 50, end_date := "0001-01-01",
    url := "https://polymarket.com/market/v4", slug := .str "v4" }

/-- The record's `events` field provides no truthy embedded event slug, so the
loop takes its fallback branch: the field is missing, not a non-empty list, or
a non-empty list whose first element is a dict without a truthy `slug`. -/
def noEmbeddedEventSlug (mf : List (String × JVal)) : Prop :=
  match dictGetD mf ("events") (.arr []) with
  | .arr (ev0 :: _) => ∃ ef, ev0 = .obj ef ∧ (dictGet ef ("slug")).truthy = false
  | _ => True

/-- The record passes the date filter (truthy string `endDateIso` parsing
within the horizon) and reaches the fallback (own-slug) branch. -/
def fallbackQualifies (nowTs days : ℤ) (mf : List (String × JVal)) (s : String) : Prop :=
  dictGet mf ("endDateIso") = .str s
    ∧ (∃ dd, parseYMD s = some dd ∧ dateTs dd ≤ nowTs + days * 86400)
    ∧ noEmbeddedEventSlug mf

/-- The record passes the date filter and carries embedded event data whose
first element is a dict with truthy slug `esl`: the event-slug branch runs. -/
def eventQualifies (nowTs days : ℤ) (mf ef : List (String × JVal)) (esl : JScalar) (s : String) : Prop :=
  dictGet mf ("endDateIso") = .str s
    ∧ (∃ dd, parseYMD s = some dd ∧ dateTs dd ≤ nowTs + days * 86400)
    ∧ (∃ rest, dictGetD mf ("events") (.arr []) = .arr (.obj ef :: rest))
    ∧ dictGet ef ("slug") = .scalar esl
    ∧ esl.truthy = true

/-- Modelled from the spec: the Event Scorer (spec section 4.3) is absent from
`src/` — `list_markets.py` has no scoring code and its `Event` dataclass
carries no contributing-market list — so the scorer's market input is taken
from the spec's data model: ordered outcome labels and a parallel price
sequence. -/
structure SMarket where
  outcomes : List String
  outcomePrices : List ℚ

/-- Modelled from the spec: a scored event is the list of its contributing
markets (spec section 3, `markets` field of `Event`). -/
structure SEvent where
  markets : List SMarket

/-- Modelled from the spec: "the maximum value in that market's price
sequence; 0.0 if the price sequence is empty" (spec section 4.3). -/
def maxPrice : List ℚ → ℚ
  | [] => 0
  | p :: ps => ps.foldl max p

/-- Modelled from the spec: the case-insensitive "yes"-labelled prices of a
market whose `outcomes` and `outcomePrices` are parallel (equal length);
a length mismatch excludes the market from scoring (spec sections 3, 4.3). -/
def yesPrices (m : SMarket) : List ℚ :=
  if m.outcomes.length = m.outcomePrices.length then
    ((m.outcomes.zip m.outcomePrices).filter (fun pr => pr.1.toLower = "yes")).map Prod.snd
  else []

/-- Modelled from the spec: `score(event)` (spec section 4.3).  No
contributing market: 0.0.  A single market: the maximum of its price
sequence (0.0 if empty).  Several markets: the maximum "yes" price across
all parallel-array markets, 0.0 when no "yes" label is found anywhere. -/
def score (e : SEvent) : ℚ :=
  match e.markets with
  | [] => 0
  | [m] => maxPrice m.outcomePrices
  | _ => (e.markets.foldl (fun acc m => acc ++ yesPrices m) []).foldl max 0

/-- Sample scored market: a yes/no market priced 0 and 1. -/
def sMarketYesNo : SMarket := { outcomes := ["Yes", "No"], outcomePrices := [0, 1] }

/-- Sample scored event with a single contributing market. -/
def sEventSingle : SEvent := { markets := [sMarketYesNo] }

theorem parseYMD_empty_eq : parseYMD ("") = none := rfl

theorem ne_empty_of_parseYMD {s : String} {d : Date} (h : parseYMD s = some d) : s ≠ "" := by
  intro he
  rw [he, parseYMD_empty_eq] at h
  exact Option.noConfusion h

theorem truthy_str_of_ne {s : String} (hs : s ≠ "") :
    (JVal.scalar (JScalar.str s)).truthy = true := by
  simp [JVal.truthy, JScalar.truthy]
  exact hs

theorem extract_event {nowTs days : ℤ} {mf ef : List (String × JVal)} {esl : JScalar} {s : String}
    (h : eventQualifies nowTs days mf ef esl s) :
    extractEntry nowTs days (.obj mf) = .ok (some (esl,
      { title := pyOr (dictGet ef ("title")) (.str "Unknown Event")
        volume := ((pyFloat (dictGetD ef ("volume") (.num 0))).toOption).getD 0
        end_date := s
        url := "https://polymarket.com/event/" ++ pyStr esl
        slug := esl })) := by
  obtain ⟨h1, ⟨dd, hdd, hle⟩, ⟨rest, hev⟩, hesl, htr⟩ := h
  have hs : s ≠ "" := ne_empty_of_parseYMD hdd
  simp only [extractEntry, h1, JVal.str, truthy_str_of_ne hs, hdd]
  rw [if_pos trivial, if_neg (by omega : ¬ dateTs dd > nowTs + days * 86400), hev]
  simp only [hesl, JVal.truthy, htr, if_true, toHashable]

theorem extract_fallback {nowTs days : ℤ} {mf : List (String × JVal)} {s : String}
    (h : fallbackQualifies nowTs days mf s) :
    extractEntry nowTs days (.obj mf) = fallbackEntry mf s := by
  obtain ⟨h1, ⟨dd, hdd, hle⟩, hno⟩ := h
  have hs : s ≠ "" := ne_empty_of_parseYMD hdd
  simp only [extractEntry, h1, JVal.str, truthy_str_of_ne hs, hdd]
  rw [if_pos trivial, if_neg (by omega : ¬ dateTs dd > nowTs + days * 86400)]
  unfold noEmbeddedEventSlug at hno
  rcases hv : dictGetD mf ("events") (.arr []) with sc | elems | fl
  · rfl
  · rw [hv] at hno
    rcases elems with _ | ⟨ev0, rest⟩
    · rfl
    · simp only at hno
      obtain ⟨ef, rfl, hfal⟩ := hno
      simp only [hfal, Bool.false_eq_true, if_false]
  · rfl

theorem fallback_ok_props {mf : List (String × JVal)} {s0 : String} {k : JScalar} {e : Event}
    (h : fallbackEntry mf s0 = .ok (some (k, e))) : e.slug = k ∧ e.end_date = s0 := by
  simp only [fallbackEntry] at h
  split at h
  · split at h
    · exact absurd h (by simp)
    · simp only [Except.ok.injEq, Option.some.injEq, Prod.mk.injEq] at h
      obtain ⟨rfl, rfl⟩ := h
      exact ⟨rfl, rfl⟩
  · exact absurd h (by simp)

theorem extract_ok_props {nowTs days : ℤ} {m : JVal} {k : JScalar} {e : Event}
    (h : extractEntry nowTs days m = .ok (some (k, e))) :
    e.slug = k ∧ ∃ dd, parseYMD e.end_date = some dd ∧ dateTs dd ≤ nowTs + days * 86400 := by
  cases m with
  | scalar s => exact absurd h (by simp [extractEntry])
  | arr l => exact absurd h (by simp [extractEntry])
  | obj mf =>
    simp only [extractEntry] at h
    split at h
    · split at h
      · rename_i ediso
        split at h
        · rename_i dd hdd
          split at h
          · exact absurd h (by simp)
          · rename_i hgt
            split at h
            · rename_i ev0 tail hev
              split at h
              · rename_i efields
                split at h
                · split at h
                  · exact absurd h (by simp)
                  · rename_i k' hk'
                    simp only [Except.ok.injEq, Option.some.injEq, Prod.mk.injEq] at h
                    obtain ⟨rfl, rfl⟩ := h
                    exact ⟨rfl, dd, hdd, by omega⟩
                · obtain ⟨h1, h2⟩ := fallback_ok_props h
                  exact ⟨h1, by rw [h2]; exact ⟨dd, hdd, by omega⟩⟩
              · exact absurd h (by simp)
            · obtain ⟨h1, h2⟩ := fallback_ok_props h
              exact ⟨h1, by rw [h2]; exact ⟨dd, hdd, by omega⟩⟩
        · exact absurd h (by simp)
      · exact absurd h (by simp)
    · exact absurd h (by simp)

theorem extract_skip_no_date {nowTs days : ℤ} {mf : List (String × JVal)}
    (h : (dictGet mf ("endDateIso")).truthy = false) :
    extractEntry nowTs days (.obj mf) = .ok none := by
  simp only [extractEntry, h, Bool.false_eq_true, if_false]

theorem extract_skip_bad_date {nowTs days : ℤ} {mf : List (String × JVal)} {s : String}
    (h1 : dictGet mf ("endDateIso") = .str s) (h2 : parseYMD s = none) :
    extractEntry nowTs days (.obj mf) = .ok none := by
  by_cases hs : s = ""
  · subst hs
    exact extract_skip_no_date (by rw [h1]; rfl)
  · simp only [extractEntry, h1, JVal.str, truthy_str_of_ne hs, if_true, h2]

theorem extract_raise_nondict_head {nowTs days : ℤ} {mf : List (String × JVal)} {s : String}
    {dd : Date} {v : JVal} {rest : List JVal}
    (h1 : dictGet mf ("endDateIso") = .str s) (h2 : parseYMD s = some dd)
    (h3 : dateTs dd ≤ nowTs + days * 86400)
    (h4 : dictGetD mf ("events") (.arr []) = .arr (v :: rest))
    (h5 : ∀ ef, v ≠ .obj ef) :
    extractEntry nowTs days (.obj mf) = .error .attributeError := by
  have hs : s ≠ "" := ne_empty_of_parseYMD h2
  simp only [extractEntry, h1, JVal.str, truthy_str_of_ne hs, h2]
  rw [if_pos trivial, if_neg (by omega : ¬ dateTs dd > nowTs + days * 86400), h4]
  cases v with
  | scalar sc => rfl
  | arr l => rfl
  | obj ef => exact absurd rfl (h5 ef)

theorem extract_raise_nonstr_date {nowTs days : ℤ} {mf : List (String × JVal)}
    (h1 : (dictGet mf ("endDateIso")).truthy = true)
    (h2 : ∀ s, dictGet mf ("endDateIso") ≠ .str s) :
    extractEntry nowTs days (.obj mf) = .error .typeError := by
  simp only [extractEntry, h1, if_true]
  rcases hv : dictGet mf ("endDateIso") with sc | l | fl
  · cases sc with
    | str s => exact absurd hv (h2 s)
    | null => rfl
    | bool b => rfl
    | num q => rfl
  · rfl
  · rfl

theorem lookupUE_append (a b : UniqueEvents) (k : JScalar) :
    lookupUE (a ++ b) k = (lookupUE a k).or (lookupUE b k) := by
  induction a with
  | nil => simp [lookupUE]
  | cons p rest ih =>
    obtain ⟨k', e⟩ := p
    by_cases hk : k' = k
    · simp [lookupUE, hk]
    · simp [lookupUE, hk, ih]

theorem lookupUE_isSome_iff {st : UniqueEvents} {k : JScalar} :
    (lookupUE st k).isSome = true ↔ k ∈ st.map Prod.fst := by
  induction st with
  | nil => simp [lookupUE]
  | cons p rest ih =>
    obtain ⟨k', e⟩ := p
    by_cases hk : k' = k
    · subst hk
      simp [lookupUE]
    · simp only [lookupUE, hk, if_false, List.map_cons, List.mem_cons, ih]
      constructor
      · intro h
        exact Or.inr h
      · rintro (h | h)
        · exact absurd h.symm hk
        · exact h

theorem mem_of_lookupUE {st : UniqueEvents} {k : JScalar} {e : Event}
    (h : lookupUE st k = some e) : (k, e) ∈ st := by
  induction st with
  | nil => simp [lookupUE] at h
  | cons p rest ih =>
    obtain ⟨k', e'⟩ := p
    by_cases hk : k' = k
    · subst hk
      simp only [lookupUE, if_true, eq_self_iff_true, Option.some.injEq] at h
      subst h
      exact List.mem_cons_self _ _
    · simp only [lookupUE, hk, if_false] at h
      exact List.mem_cons_of_mem _ (ih h)

theorem lookupUE_eq_some_of_mem {st : UniqueEvents} (hn : (st.map Prod.fst).Nodup)
    {k : JScalar} {e : Event} (hm : (k, e) ∈ st) : lookupUE st k = some e := by
  induction st with
  | nil => simp at hm
  | cons p rest ih =>
    obtain ⟨k', e'⟩ := p
    simp only [List.map_cons, List.nodup_cons] at hn
    rcases List.mem_cons.mp hm with h | h
    · obtain ⟨rfl, rfl⟩ := Prod.mk.injEq .. |>.mp h.symm |>.imp Eq.symm Eq.symm
      simp [lookupUE]
    · have hk : k' ≠ k := by
        rintro rfl
        exact hn.1 (List.mem_map.mpr ⟨(k', e), h, rfl⟩)
      simp only [lookupUE, hk, if_false]
      exact ih hn.2 h

theorem aggAux_lookup {nowTs days : ℤ} {l : List JVal} {st st' : UniqueEvents}
    (h : aggAux nowTs days st l = .ok st') (k : JScalar) :
    lookupUE st' k = (lookupUE st k).or (firstEntry nowTs days l k) := by
  induction l generalizing st with
  | nil =>
    simp only [aggAux, Except.ok.injEq] at h
    subst h
    simp [firstEntry, Option.or_none]
  | cons m rest ih =>
    simp only [aggAux] at h
    rcases hstep : step nowTs days st m with err | st1
    · rw [hstep] at h
      cases h
    · rw [hstep] at h
      unfold step at hstep
      rcases hex : extractEntry nowTs days m with err | oe
      · rw [hex] at hstep
        cases hstep
      · rw [hex] at hstep
        rcases oe with _ | ⟨k0, e0⟩
        · simp only [Except.ok.injEq] at hstep
          subst hstep
          rw [ih h]
          simp only [firstEntry, hex]
        · simp only [Except.ok.injEq] at hstep
          subst hstep
          rw [ih h]
          simp only [firstEntry, hex]
          by_cases hk0 : (lookupUE st k0).isSome
          · rw [if_pos hk0]
            by_cases hkk : k0 = k
            · subst hkk
              obtain ⟨e1, he1⟩ := Option.isSome_iff_exists.mp hk0
              rw [he1, if_pos rfl]
              simp [Option.or_some]
            · rw [if_neg hkk]
          · rw [if_neg hk0, lookupUE_append]
            by_cases hkk : k0 = k
            · subst hkk
              have : lookupUE st k0 = none := Option.not_isSome_iff_eq_none.mp hk0
              rw [this, if_pos rfl]
              simp [lookupUE]
            · rw [if_neg hkk]
              have : lookupUE [(k0, e0)] k = none := by
                simp [lookupUE, hkk]
              rw [this, Option.or_none]

theorem aggAux_keys_nodup {nowTs days : ℤ} {l : List JVal} {st st' : UniqueEvents}
    (h : aggAux nowTs days st l = .ok st') (hn : (st.map Prod.fst).Nodup) :
    (st'.map Prod.fst).Nodup := by
  induction l generalizing st with
  | nil =>
    simp only [aggAux, Except.ok.injEq] at h
    subst h
    exact hn
  | cons m rest ih =>
    simp only [aggAux] at h
    rcases hstep : step nowTs days st m with err | st1
    · rw [hstep] at h
      cases h
    · rw [hstep] at h
      unfold step at hstep
      rcases hex : extractEntry nowTs days m with err | oe
      · rw [hex] at hstep
        cases hstep
      · rw [hex] at hstep
        rcases oe with _ | ⟨k0, e0⟩
        · simp only [Except.ok.injEq] at hstep
          subst hstep
          exact ih h hn
        · simp only [Except.ok.injEq] at hstep
          subst hstep
          by_cases hk0 : (lookupUE st k0).isSome
          · rw [if_pos hk0] at h
            exact ih h hn
          · rw [if_neg hk0] at h
            refine ih h ?_
            have hkm : k0 ∉ st.map Prod.fst := fun hm =>
              hk0 (lookupUE_isSome_iff.mpr hm)
            simp only [List.map_append, List.map_cons, List.map_nil]
            simp [List.nodup_append, hn, hkm]

theorem aggAux_slug {nowTs days : ℤ} {l : List JVal} {st st' : UniqueEvents}
    (h : aggAux nowTs days st l = .ok st') (hst : ∀ p ∈ st, (p.2 : Event).slug = p.1) :
    ∀ p ∈ st', (p.2 : Event).slug = p.1 := by
  induction l generalizing st with
  | nil =>
    simp only [aggAux, Except.ok.injEq] at h
    subst h
    exact hst
  | cons m rest ih =>
    simp only [aggAux] at h
    rcases hstep : step nowTs days st m with err | st1
    · rw [hstep] at h
      cases h
    · rw [hstep] at h
      unfold step at hstep
      rcases hex : extractEntry nowTs days m with err | oe
      · rw [hex] at hstep
        cases hstep
      · rw [hex] at hstep
        rcases oe with _ | ⟨k0, e0⟩
        · simp only [Except.ok.injEq] at hstep
          subst hstep
          exact ih h hst
        · simp only [Except.ok.injEq] at hstep
          subst hstep
          by_cases hk0 : (lookupUE st k0).isSome
          · rw [if_pos hk0] at h
            exact ih h hst
          · rw [if_neg hk0] at h
            refine ih h ?_
            intro p hp
            rcases List.mem_append.mp hp with hp | hp
            · exact hst p hp
            · simp only [List.mem_singleton] at hp
              subst hp
              exact (extract_ok_props hex).1

theorem aggAux_keys_order {nowTs days : ℤ} {l : List JVal} {st st' : UniqueEvents}
    (h : aggAux nowTs days st l = .ok st') :
    st'.map Prod.fst = insertionKeys nowTs days (st.map Prod.fst) l := by
  induction l generalizing st with
  | nil =>
    simp only [aggAux, Except.ok.injEq] at h
    subst h
    rfl
  | cons m rest ih =>
    simp only [aggAux] at h
    rcases hstep : step nowTs days st m with err | st1
    · rw [hstep] at h
      cases h
    · rw [hstep] at h
      unfold step at hstep
      rcases hex : extractEntry nowTs days m with err | oe
      · rw [hex] at hstep
        cases hstep
      · rw [hex] at hstep
        rcases oe with _ | ⟨k0, e0⟩
        · simp only [Except.ok.injEq] at hstep
          subst hstep
          rw [ih h]
          simp only [insertionKeys, hex]
        · simp only [Except.ok.injEq] at hstep
          subst hstep
          rw [ih h]
          simp only [insertionKeys, hex]
          by_cases hk0 : (lookupUE st k0).isSome
          · rw [if_pos hk0, if_pos (lookupUE_isSome_iff.mp hk0)]
          · rw [if_neg hk0, if_neg (fun hm => hk0 (lookupUE_isSome_iff.mpr hm))]
            simp

theorem insertByVolume_perm (e : Event) (l : List Event) :
    List.Perm (insertByVolume e l) (e :: l) := by
  induction l with
  | nil => exact List.Perm.refl _
  | cons x xs ih =>
    unfold insertByVolume
    by_cases h : e.volume ≤ x.volume
    · rw [if_pos h]
      exact (ih.cons x).trans (List.Perm.swap e x xs)
    · rw [if_neg h]

theorem sortAux_perm (l : List Event) (acc : List Event) :
    List.Perm (l.foldl (fun acc e => insertByVolume e acc) acc) (acc ++ l) := by
  induction l generalizing acc with
  | nil => simp
  | cons x xs ih =>
    simp only [List.foldl_cons]
    refine (ih (insertByVolume x acc)).trans ?_
    refine (List.Perm.append_right xs ((insertByVolume_perm x acc))).trans ?_
    exact List.perm_middle.symm

theorem sortByVolume_perm (l : List Event) : List.Perm (sortByVolume l) l := by
  simpa using sortAux_perm l []

theorem pairwise_insertByVolume {l : List Event} (e : Event)
    (h : l.Pairwise (fun a b => b.volume ≤ a.volume)) :
    (insertByVolume e l).Pairwise (fun a b => b.volume ≤ a.volume) := by
  induction l with
  | nil => simp [insertByVolume]
  | cons x xs ih =>
    rw [List.pairwise_cons] at h
    obtain ⟨hx, hxs⟩ := h
    unfold insertByVolume
    by_cases hc : e.volume ≤ x.volume
    · rw [if_pos hc]
      rw [List.pairwise_cons]
      refine ⟨?_, ih hxs⟩
      intro y hy
      rcases List.mem_cons.mp ((insertByVolume_perm e xs).mem_iff.mp hy) with hy | hy
      · subst hy
        exact hc
      · exact hx y hy
    · rw [if_neg hc]
      rw [List.pairwise_cons]
      refine ⟨?_, List.pairwise_cons.mpr ⟨hx, hxs⟩⟩
      intro y hy
      rcases List.mem_cons.mp hy with hy | hy
      · subst hy
        exact le_of_lt (lt_of_not_le hc)
      · exact le_trans (hx y hy) (le_of_not_le hc)

theorem sortAux_pairwise (l : List Event) (acc : List Event)
    (hacc : acc.Pairwise (fun a b => b.volume ≤ a.volume)) :
    (l.foldl (fun acc e => insertByVolume e acc) acc).Pairwise (fun a b => b.volume ≤ a.volume) := by
  induction l generalizing acc with
  | nil => exact hacc
  | cons x xs ih =>
    simp only [List.foldl_cons]
    exact ih _ (pairwise_insertByVolume x hacc)

theorem sortByVolume_pairwise (l : List Event) :
    (sortByVolume l).Pairwise (fun a b => b.volume ≤ a.volume) :=
  sortAux_pairwise l [] (List.Pairwise.nil)

theorem filter_insertByVolume {l : List Event}
    (hl : l.Pairwise (fun a b => b.volume ≤ a.volume)) (e : Event) (v : ℚ) :
    (insertByVolume e l).filter (fun x => decide (x.volume = v)) =
      if e.volume = v then l.filter (fun x => decide (x.volume = v)) ++ [e]
      else l.filter (fun x => decide (x.volume = v)) := by
  induction l with
  | nil =>
    by_cases he : e.volume = v <;> simp [insertByVolume, List.filter, he]
  | cons x xs ih =>
    rw [List.pairwise_cons] at hl
    obtain ⟨hx, hxs⟩ := hl
    unfold insertByVolume
    by_cases hc : e.volume ≤ x.volume
    · rw [if_pos hc]
      by_cases hxv : x.volume = v <;> by_cases hev : e.volume = v <;>
        simp [List.filter_cons, hxv, hev, ih hxs]
    · rw [if_neg hc]
      by_cases hev : e.volume = v
      · have hnil : (x :: xs).filter (fun y => decide (y.volume = v)) = [] := by
          rw [List.filter_eq_nil_iff]
          intro y hy
          have hyx : y.volume ≤ x.volume := by
            rcases List.mem_cons.mp hy with hy | hy
            · subst hy
              exact le_refl _
            · exact hx y hy
          have : y.volume < v := lt_of_le_of_lt hyx (hev ▸ lt_of_not_le hc)
          simp only [decide_eq_true_eq]
          exact ne_of_lt this
        simp [List.filter_cons, hev, hnil]
      · simp [List.filter_cons, hev]

theorem sortAux_filter (l : List Event) (acc : List Event)
    (hacc : acc.Pairwise (fun a b => b.volume ≤ a.volume)) (v : ℚ) :
    (l.foldl (fun acc e => insertByVolume e acc) acc).filter (fun x => decide (x.volume = v)) =
      acc.filter (fun x => decide (x.volume = v)) ++ l.filter (fun x => decide (x.volume = v)) := by
  induction l generalizing acc with
  | nil => simp
  | cons x xs ih =>
    simp only [List.foldl_cons]
    rw [ih _ (pairwise_insertByVolume x hacc)]
    rw [filter_insertByVolume hacc x v]
    by_cases hxv : x.volume = v
    · simp [List.filter_cons, hxv]
    · simp [List.filter_cons, hxv]

theorem sortByVolume_filter (l : List Event) (v : ℚ) :
    (sortByVolume l).filter (fun x => decide (x.volume = v)) =
      l.filter (fun x => decide (x.volume = v)) :=
  sortAux_filter l [] List.Pairwise.nil v

theorem sortByVolume_stable_pair {l : List Event} {a b : Event}
    (h : [a, b].Sublist l) (hv : a.volume = b.volume) :
    [a, b].Sublist (sortByVolume l) := by
  have hfa : [a, b].filter (fun x => decide (x.volume = b.volume)) = [a, b] := by
    simp [List.filter_cons, hv]
  have h1 : [a, b].Sublist (l.filter (fun x => decide (x.volume = b.volume))) := by
    rw [← hfa]
    exact h.filter _
  rw [← sortByVolume_filter l b.volume] at h1
  exact h1.trans (List.filter_sublist _)

theorem firstEntry_mem {nowTs days : ℤ} {l : List JVal} {k : JScalar} {e : Event}
    (h : firstEntry nowTs days l k = some e) :
    ∃ m ∈ l, extractEntry nowTs days m = .ok (some (k, e)) := by
  induction l with
  | nil => simp [firstEntry] at h
  | cons m rest ih =>
    rcases hex : extractEntry nowTs days m with err | oe
    · simp only [firstEntry, hex] at h
      obtain ⟨m', hm', he'⟩ := ih h
      exact ⟨m', List.mem_cons_of_mem _ hm', he'⟩
    · rcases oe with _ | ⟨k', e'⟩
      · simp only [firstEntry, hex] at h
        obtain ⟨m', hm', he'⟩ := ih h
        exact ⟨m', List.mem_cons_of_mem _ hm', he'⟩
      · simp only [firstEntry, hex] at h
        by_cases hk : k' = k
        · subst hk
          rw [if_pos rfl] at h
          obtain rfl := Option.some.injEq .. |>.mp h
          exact ⟨m, List.mem_cons_self _ _, hex⟩
        · rw [if_neg hk] at h
          obtain ⟨m', hm', he'⟩ := ih h
          exact ⟨m', List.mem_cons_of_mem _ hm', he'⟩

theorem firstEntry_append {nowTs days : ℤ} {l₁ : List JVal} {m : JVal} {l₂ : List JVal}
    {k : JScalar} {e : Event}
    (h1 : ∀ m' ∈ l₁, ∀ e', extractEntry nowTs days m' ≠ .ok (some (k, e')))
    (h2 : extractEntry nowTs days m = .ok (some (k, e))) :
    firstEntry nowTs days (l₁ ++ m :: l₂) k = some e := by
  induction l₁ with
  | nil =>
    simp only [List.nil_append, firstEntry, h2]
    simp
  | cons m' r ih =>
    have hm' := h1 m' (List.mem_cons_self _ _)
    rcases hex : extractEntry nowTs days m' with err | oe
    · simp only [List.cons_append, firstEntry, hex]
      exact ih (fun x hx => h1 x (List.mem_cons_of_mem _ hx))
    · rcases oe with _ | ⟨k', e'⟩
      · simp only [List.cons_append, firstEntry, hex]
        exact ih (fun x hx => h1 x (List.mem_cons_of_mem _ hx))
      · have hk : k' ≠ k := by
          rintro rfl
          exact hm' e' hex
        simp only [List.cons_append, firstEntry, hex, hk, if_neg, if_false]
        exact ih (fun x hx => h1 x (List.mem_cons_of_mem _ hx))

theorem aggAux_skip {nowTs days : ℤ} {m : JVal}
    (hm : extractEntry nowTs days m = .ok none)
    (l₁ l₂ : List JVal) (st : UniqueEvents) :
    aggAux nowTs days st (l₁ ++ m :: l₂) = aggAux nowTs days st (l₁ ++ l₂) := by
  induction l₁ generalizing st with
  | nil =>
    simp only [List.nil_append, aggAux, step, hm]
  | cons m' r ih =>
    simp only [List.cons_append, aggAux]
    rcases hstep : step nowTs days st m' with err | st1
    · rfl
    · exact ih st1

theorem process_events_shape {nowTs days : ℤ} {l : List JVal} {out : List Event}
    (h : process_events nowTs days l = .ok out) :
    ∃ st, aggregate nowTs days l = .ok st ∧ out = sortByVolume (st.map Prod.snd) := by
  unfold process_events at h
  rcases hagg : aggregate nowTs days l with err | st
  · rw [hagg] at h
    cases h
  · rw [hagg] at h
    simp only [Except.ok.injEq] at h
    exact ⟨st, rfl, h.symm⟩

theorem out_iff_firstEntry {nowTs days : ℤ} {l : List JVal} {out : List Event}
    (h : process_events nowTs days l = .ok out) (k : JScalar) (e : Event) :
    (e ∈ out ∧ e.slug = k) ↔ firstEntry nowTs days l k = some e := by
  obtain ⟨st, hagg, rfl⟩ := process_events_shape h
  have hlk := aggAux_lookup hagg k
  rw [show lookupUE [] k = none from rfl, Option.none_or] at hlk
  have hnd : (st.map Prod.fst).Nodup := aggAux_keys_nodup hagg (by simp)
  have hslug : ∀ p ∈ st, (p.2 : Event).slug = p.1 := aggAux_slug hagg (by simp)
  constructor
  · rintro ⟨hmem, hk⟩
    have hv : e ∈ st.map Prod.snd := (sortByVolume_perm _).mem_iff.mp hmem
    obtain ⟨⟨k1, e1⟩, hp, he⟩ := List.mem_map.mp hv
    simp only at he
    subst he
    have hk1 : e1.slug = k1 := hslug _ hp
    rw [← hlk, ← hk, hk1]
    exact lookupUE_eq_some_of_mem hnd hp
  · intro hfe
    rw [← hlk] at hfe
    have hp := mem_of_lookupUE hfe
    refine ⟨?_, hslug _ hp⟩
    exact (sortByVolume_perm _).mem_iff.mpr (List.mem_map.mpr ⟨(k, e), hp, rfl⟩)

/-- C1: whenever `process_events` returns, no two output events share a slug,
and each output event is exactly the entry built from the first record whose
extraction produced that slug — later records with the same key are
discarded, never merged into the stored event. -/
theorem c1_dedup_first_wins {nowTs days : ℤ} {l : List JVal} {out : List Event}
    (h : process_events nowTs days l = .ok out) :
    (out.map Event.slug).Nodup ∧ ∀ e ∈ out, firstEntry nowTs days l e.slug = some e := by
  obtain ⟨st, hagg, houts⟩ := process_events_shape h
  constructor
  · have hperm : List.Perm (out.map Event.slug) ((st.map Prod.snd).map Event.slug) := by
      rw [houts]
      exact (sortByVolume_perm _).map _
    have hmapeq : (st.map Prod.snd).map Event.slug = st.map Prod.fst := by
      rw [List.map_map]
      exact List.map_congr_left (fun p hp => aggAux_slug hagg (by simp) p hp)
    have hnd : (st.map Prod.fst).Nodup := aggAux_keys_nodup hagg (by simp)
    exact hperm.nodup_iff.mpr (hmapeq ▸ hnd)
  · intro e he
    exact (out_iff_firstEntry h e.slug e).mp ⟨he, rfl⟩

/-- C1 witness: among three sample records two share event slug `e1`; the
output keeps one event per slug, each built from the first-seen record. -/
theorem c1_dedup_first_wins_witness :
    (([evM3, evE1].map Event.slug)).Nodup ∧
      ∀ e ∈ [evM3, evE1], firstEntry 0 2 [mEvent1, mEvent1b, mMarket3] e.slug = some e :=
  @c1_dedup_first_wins 0 2 [mEvent1, mEvent1b, mMarket3] [evM3, evE1] rfl

/-- C2: every output event's `end_date` string parses under the code's
`%Y-%m-%d` parser to a date no later than `now + days_filter`; a record
with a missing/falsy `endDateIso`, or with an end-date string the parser
rejects, is skipped and contributes nothing. -/
theorem c2_horizon :
    (∀ nowTs days : ℤ, ∀ (l : List JVal) (out : List Event),
      process_events nowTs days l = .ok out →
      ∀ e ∈ out, ∃ dd, parseYMD e.end_date = some dd ∧ dateTs dd ≤ nowTs + days * 86400)
    ∧ (∀ nowTs days : ℤ, ∀ mf, (dictGet mf ("endDateIso")).truthy = false →
      extractEntry nowTs days (.obj mf) = .ok none)
    ∧ (∀ nowTs days : ℤ, ∀ mf s, dictGet mf ("endDateIso") = .str s → parseYMD s = none →
      extractEntry nowTs days (.obj mf) = .ok none) := by
  refine ⟨?_, ?_, ?_⟩
  · intro nowTs days l out h e he
    obtain ⟨m, _, hex⟩ := firstEntry_mem ((out_iff_firstEntry h e.slug e).mp ⟨he, rfl⟩)
    exact (extract_ok_props hex).2
  · intro nowTs days mf h
    exact extract_skip_no_date h
  · intro nowTs days mf s h1 h2
    exact extract_skip_bad_date h1 h2

/-- C2 witness: instantiated on the sample batch: the output event's date
parses and lies within the two-day horizon. -/
theorem c2_horizon_witness :
    ∃ dd, parseYMD evM3.end_date = some dd ∧ dateTs dd ≤ 0 + 2 * 86400 :=
  c2_horizon.1 0 2 [mMarket3] [evM3] rfl evM3 (List.mem_singleton.mpr rfl)

/-- C3: when two qualifying records share a grouping slug and the earlier of
the two is the first record producing that slug, the output event for the
slug carries exactly the earlier record's representative title and volume. -/
theorem c3_first_wins_title_volume {nowTs days : ℤ} {l₁ l₂ l₃ : List JVal} {m₁ m₂ : JVal}
    {k : JScalar} {e₁ e₂ : Event} {out : List Event}
    (hm₁ : extractEntry nowTs days m₁ = .ok (some (k, e₁)))
    (hm₂ : extractEntry nowTs days m₂ = .ok (some (k, e₂)))
    (hdiff : e₁.title ≠ e₂.title ∨ e₁.volume ≠ e₂.volume)
    (hfirst : ∀ m' ∈ l₁, ∀ e', extractEntry nowTs days m' ≠ .ok (some (k, e')))
    (h : process_events nowTs days (l₁ ++ m₁ :: (l₂ ++ m₂ :: l₃)) = .ok out) :
    (∃ e ∈ out, e.slug = k) ∧
      ∀ e ∈ out, e.slug = k → e.title = e₁.title ∧ e.volume = e₁.volume := by
  have hfe : firstEntry nowTs days (l₁ ++ m₁ :: (l₂ ++ m₂ :: l₃)) k = some e₁ :=
    firstEntry_append hfirst hm₁
  have h1 := (out_iff_firstEntry h k e₁).mpr hfe
  refine ⟨⟨e₁, h1.1, h1.2⟩, ?_⟩
  intro e he hk
  have h2 := (out_iff_firstEntry h k e).mp ⟨he, hk⟩
  rw [hfe] at h2
  obtain rfl := (Option.some.injEq .. ).mp h2
  exact ⟨rfl, rfl⟩

/-- C3 witness: two sample markets share event slug `e1` with different
titles and volumes; the output event for `e1` carries the first one's
title `T1` and volume 5. -/
theorem c3_first_wins_title_volume_witness :
    (∃ e ∈ [evM3, evE1], e.slug = JScalar.str "e1") ∧
      ∀ e ∈ [evM3, evE1], e.slug = JScalar.str "e1" →
        e.title = evE1.title ∧ e.volume = evE1.volume :=
  @c3_first_wins_title_volume 0 2 [] [] [mMarket3] mEvent1 mEvent1b (.str "e1") evE1
    ⟨.str "T2", 9, "0001-01-01", "https://polymarket.com/event/e1", .str "e1"⟩ [evM3, evE1]
    rfl rfl (Or.inr (by decide)) (fun m' hm' => absurd hm' (List.not_mem_nil m')) rfl

/-- C5: the final ordering is the stable descending sort by volume of the
aggregated values: it is a permutation of them, pairwise volume-descending
(so every event of strictly smaller volume ranks below), equal-volume events
keep exactly their aggregation (first-occurrence) order, and any two
equal-volume events appear in the same relative order as in the aggregate. -/
theorem c5_sort_stable_desc {nowTs days : ℤ} {l : List JVal} {out : List Event}
    (h : process_events nowTs days l = .ok out) :
    ∃ st, aggregate nowTs days l = .ok st ∧
      List.Perm out (st.map Prod.snd) ∧
      out.Pairwise (fun a b => b.volume ≤ a.volume) ∧
      (∀ v : ℚ, out.filter (fun e => decide (e.volume = v)) =
        (st.map Prod.snd).filter (fun e => decide (e.volume = v))) ∧
      (∀ a b : Event, [a, b].Sublist (st.map Prod.snd) → a.volume = b.volume →
        [a, b].Sublist out) := by
  obtain ⟨st, hagg, rfl⟩ := process_events_shape h
  exact ⟨st, hagg, sortByVolume_perm _, sortByVolume_pairwise _,
    fun v => sortByVolume_filter _ v, fun a b hs hv => sortByVolume_stable_pair hs hv⟩

/-- C5 witness: volumes 100, 300, 300, 50 in input order rank as
300, 300, 100, 50 with the tie in input order. -/
theorem c5_sort_stable_desc_witness :
    ∃ st, aggregate 0 2 [mVol100, mVol300a, mVol300b, mVol50] = .ok st ∧
      List.Perm [evV300a, evV300b, evV100, evV50] (st.map Prod.snd) ∧
      [evV300a, evV300b, evV100, evV50].Pairwise (fun a b => b.volume ≤ a.volume) ∧
      (∀ v : ℚ, [evV300a, evV300b, evV100, evV50].filter (fun e => decide (e.volume = v)) =
        (st.map Prod.snd).filter (fun e => decide (e.volume = v))) ∧
      (∀ a b : Event, [a, b].Sublist (st.map Prod.snd) → a.volume = b.volume →
        [a, b].Sublist [evV300a, evV300b, evV100, evV50]) :=
  @c5_sort_stable_desc 0 2 [mVol100, mVol300a, mVol300b, mVol50]
    [evV300a, evV300b, evV100, evV50] rfl

/-- C6: `process_events` is the sort applied after aggregation — the
aggregation loop itself returns the `unique_events` values untouched, in
dict insertion order, whose keys are exactly the grouping keys in the order
they were first seen in the input. -/
theorem c6_aggregation_insertion_order :
    (∀ nowTs days : ℤ, ∀ l : List JVal, process_events nowTs days l =
      (aggregate nowTs days l).map (fun st => sortByVolume (st.map Prod.snd)))
    ∧ (∀ nowTs days : ℤ, ∀ (l : List JVal) (st : UniqueEvents),
      aggregate nowTs days l = .ok st →
      st.map Prod.fst = insertionKeys nowTs days [] l) := by
  constructor
  · intro nowTs days l
    unfold process_events
    cases haggr : aggregate nowTs days l <;> simp [haggr, Except.map]
  · intro nowTs days l st h
    exact aggAux_keys_order h

/-- C6 witness: on the sample batch the aggregate keys are `e1` then `m3`,
the order the two grouping keys are first seen. -/
theorem c6_aggregation_insertion_order_witness :
    ([(JScalar.str "e1", evE1), (JScalar.str "m3", evM3)].map Prod.fst) =
      insertionKeys 0 2 [] [mEvent1, mEvent1b, mMarket3] :=
  c6_aggregation_insertion_order.2 0 2 [mEvent1, mEvent1b, mMarket3]
    [(JScalar.str "e1", evE1), (JScalar.str "m3", evM3)] rfl

/-- C7 counterexample: a record whose `events` list holds a bare string makes
`process_events` raise `AttributeError` (line 113, `event.get` on a
non-dict), aborting the whole batch — the sibling well-formed record
contributes nothing, refuting "never raises". -/
theorem c7_counterexample :
    process_events 0 2 [mBadHead, mMarket3] = .error .attributeError := rfl

/-- C7 amended: a record failing the tolerated validation steps — falsy or
missing `endDateIso`, an end-date string the parser rejects — is skipped
with the rest of the batch processed exactly as if the record were absent;
but a record whose `events` list starts with a non-dict raises
`AttributeError` and aborts `process_events`. -/
theorem c7_amended :
    (∀ nowTs days : ℤ, ∀ (m : JVal) (l₁ l₂ : List JVal),
      extractEntry nowTs days m = .ok none →
      process_events nowTs days (l₁ ++ m :: l₂) = process_events nowTs days (l₁ ++ l₂))
    ∧ (∀ nowTs days : ℤ, ∀ mf, (dictGet mf ("endDateIso")).truthy = false →
      extractEntry nowTs days (.obj mf) = .ok none)
    ∧ (∀ nowTs days : ℤ, ∀ mf s, dictGet mf ("endDateIso") = .str s →
      parseYMD s = none → extractEntry nowTs days (.obj mf) = .ok none)
    ∧ (∀ nowTs days : ℤ, ∀ mf s dd (v : JVal) (rest : List JVal),
      dictGet mf ("endDateIso") = .str s → parseYMD s = some dd →
      dateTs dd ≤ nowTs + days * 86400 →
      dictGetD mf ("events") (.arr []) = .arr (v :: rest) →
      (∀ ef, v ≠ .obj ef) →
      extractEntry nowTs days (.obj mf) = .error .attributeError) := by
  refine ⟨?_, ?_, ?_, ?_⟩
  · intro nowTs days m l₁ l₂ hm
    unfold process_events aggregate
    rw [aggAux_skip hm]
  · intro nowTs days mf h
    exact extract_skip_no_date h
  · intro nowTs days mf s h1 h2
    exact extract_skip_bad_date h1 h2
  · intro nowTs days mf s dd v rest h1 h2 h3 h4 h5
    exact extract_raise_nondict_head h1 h2 h3 h4 h5

/-- C7 amended witness: dropping the record with the unparseable end date
from a batch leaves the result unchanged. -/
theorem c7_amended_witness :
    process_events 0 2 ([mMissingDate] ++ mUnparseableDate :: [mMarket3]) =
      process_events 0 2 ([mMissingDate] ++ [mMarket3]) :=
  c7_amended.1 0 2 mUnparseableDate [mMissingDate] [mMarket3] rfl

/-- C8 counterexample: a record with a truthy `id`, a valid in-horizon end
date, but no `slug` and no embedded event is dropped entirely — the code
never falls back to `id` as a grouping key, refuting "or its id when the
slug is missing". -/
theorem c8_counterexample :
    (dictGet mfNoSlugId ("id")).truthy = true ∧
      process_events 0 2 [mNoSlugId] = .ok [] := ⟨rfl, rfl⟩

/-- C8 amended: for a qualifying market without a truthy embedded event
slug, the grouping key is the market's own `slug` only: with a truthy
hashable slug the entry uses the market's `question` (defaulting to
"Unknown Market") and coerced `volumeNum`, and with no truthy slug the
record is dropped even when it has an `id`. -/
theorem c8_amended {nowTs days : ℤ} {mf : List (String × JVal)} {s : String}
    (h : fallbackQualifies nowTs days mf s) :
    ((dictGet mf ("slug")).truthy = false → extractEntry nowTs days (.obj mf) = .ok none)
    ∧ (∀ sl : JScalar, dictGet mf ("slug") = .scalar sl → sl.truthy = true →
      extractEntry nowTs days (.obj mf) = .ok (some (sl,
        { title := dictGetD mf ("question") (.str "Unknown Market")
          volume := ((pyFloat (dictGetD mf ("volumeNum") (.num 0))).toOption).getD 0
          end_date := s
          url := "https://polymarket.com/market/" ++ pyStr sl
          slug := sl }))) := by
  have hx := extract_fallback h
  constructor
  · intro hfal
    rw [hx]
    simp only [fallbackEntry, hfal, Bool.false_eq_true, if_false]
  · intro sl hsl htr
    rw [hx]
    simp only [fallbackEntry, hsl, JVal.truthy, htr, if_true, toHashable]

/-- C8 amended witness: the id-only record is dropped; the slugged record
keys by its own slug with its own question and volume. -/
theorem c8_amended_witness :
    extractEntry 0 2 (.obj mfNoSlugId) = .ok none ∧
      extractEntry 0 2 (.obj mfMarket3) = .ok (some (JScalar.str "m3",
        { title := dictGetD mfMarket3 ("question") (.str "Unknown Market")
          volume := ((pyFloat (dictGetD mfMarket3 ("volumeNum") (.num 0))).toOption).getD 0
          end_date := "0001-01-01"
          url := "https://polymarket.com/market/" ++ pyStr (JScalar.str "m3")
          slug := JScalar.str "m3" })) := by
  constructor
  · exact (@c8_amended 0 2 mfNoSlugId "0001-01-01"
      ⟨rfl, ⟨⟨1, 1, 1⟩, rfl, by decide⟩, trivial⟩).1 rfl
  · exact (@c8_amended 0 2 mfMarket3 "0001-01-01"
      ⟨rfl, ⟨⟨1, 1, 1⟩, rfl, by decide⟩, trivial⟩).2 (JScalar.str "m3") rfl rfl

/-- C9: a volume value that `float()` cannot coerce (wrong type or an
unparseable string) yields an event built with volume 0.0 on either branch —
the coercion failure neither raises out of `process_events` nor causes the
record to be skipped. -/
theorem c9_bad_volume_defaults_zero :
    (∀ nowTs days : ℤ, ∀ (mf : List (String × JVal)) (s : String) (sl : JScalar),
      fallbackQualifies nowTs days mf s →
      dictGet mf ("slug") = .scalar sl → sl.truthy = true →
      pyFloat (dictGetD mf ("volumeNum") (.num 0)) = .error () →
      ∃ e, extractEntry nowTs days (.obj mf) = .ok (some (sl, e)) ∧ e.volume = 0)
    ∧ (∀ nowTs days : ℤ, ∀ (mf ef : List (String × JVal)) (esl : JScalar) (s : String),
      eventQualifies nowTs days mf ef esl s →
      pyFloat (dictGetD ef ("volume") (.num 0)) = .error () →
      ∃ e, extractEntry nowTs days (.obj mf) = .ok (some (esl, e)) ∧ e.volume = 0) := by
  constructor
  · intro nowTs days mf s sl hq hsl htr hbad
    refine ⟨{ title := dictGetD mf ("question") (.str "Unknown Market")
              volume := ((pyFloat (dictGetD mf ("volumeNum") (.num 0))).toOption).getD 0
              end_date := s
              url := "https://polymarket.com/market/" ++ pyStr sl
              slug := sl }, ?_, ?_⟩
    · rw [extract_fallback hq]
      simp only [fallbackEntry, hsl, JVal.truthy, htr, if_true, toHashable]
    · simp [hbad, Except.toOption]
  · intro nowTs days mf ef esl s hq hbad
    refine ⟨{ title := pyOr (dictGet ef ("title")) (.str "Unknown Event")
              volume := ((pyFloat (dictGetD ef ("volume") (.num 0))).toOption).getD 0
              end_date := s
              url := "https://polymarket.com/event/" ++ pyStr esl
              slug := esl }, ?_, ?_⟩
    · exact extract_event hq
    · simp [hbad, Except.toOption]

/-- C9 witness: markets with `volumeNum` "abc" and event volume "xyz" still
produce entries, with volume 0. -/
theorem c9_bad_volume_defaults_zero_witness :
    (∃ e, extractEntry 0 2 (.obj mfBadVol) = .ok (some (JScalar.str "m4", e)) ∧ e.volume = 0)
    ∧ (∃ e, extractEntry 0 2 (.obj mfBadVolEvent) =
        .ok (some (JScalar.str "e9", e)) ∧ e.volume = 0) := by
  constructor
  · exact c9_bad_volume_defaults_zero.1 0 2 mfBadVol "0001-01-01" (JScalar.str "m4")
      ⟨rfl, ⟨⟨1, 1, 1⟩, rfl, by decide⟩, trivial⟩ rfl rfl rfl
  · exact c9_bad_volume_defaults_zero.2 0 2 mfBadVolEvent efBadVol (JScalar.str "e9")
      "0001-01-01" ⟨rfl, ⟨⟨1, 1, 1⟩, rfl, by decide⟩, ⟨[], rfl⟩, rfl, rfl⟩ rfl

/-- C10: embedded event slugs and bare market slugs share one key space:
whichever record first produced a key wins outright — its event (title,
volume, end date, and URL form included) is the unique output event for the
key, and the later record's would-be event is absent. -/
theorem c10_shared_key_space {nowTs days : ℤ} {l₁ l₂ l₃ : List JVal} {m₁ m₂ : JVal}
    {k : JScalar} {e₁ e₂ : Event} {out : List Event}
    (hm₁ : extractEntry nowTs days m₁ = .ok (some (k, e₁)))
    (hm₂ : extractEntry nowTs days m₂ = .ok (some (k, e₂)))
    (hne : e₁ ≠ e₂)
    (hfirst : ∀ m' ∈ l₁, ∀ e', extractEntry nowTs days m' ≠ .ok (some (k, e')))
    (h : process_events nowTs days (l₁ ++ m₁ :: (l₂ ++ m₂ :: l₃)) = .ok out) :
    e₁ ∈ out ∧ (∀ e ∈ out, e.slug = k → e = e₁) ∧ e₂ ∉ out := by
  have hfe : firstEntry nowTs days (l₁ ++ m₁ :: (l₂ ++ m₂ :: l₃)) k = some e₁ :=
    firstEntry_append hfirst hm₁
  have h1 := (out_iff_firstEntry h k e₁).mpr hfe
  refine ⟨h1.1, ?_, ?_⟩
  · intro e he hk
    have h2 := (out_iff_firstEntry h k e).mp ⟨he, hk⟩
    rw [hfe] at h2
    exact ((Option.some.injEq .. ).mp h2).symm
  · intro hmem
    have h2 := (out_iff_firstEntry h k e₂).mp ⟨hmem, (extract_ok_props hm₂).1⟩
    rw [hfe] at h2
    exact hne ((Option.some.injEq .. ).mp h2)

/-- C10 witness: a bare market with own slug `m3` precedes a market whose
embedded event slug is also `m3`; the market-path event (market URL form)
wins and the event-path event is absent. -/
theorem c10_shared_key_space_witness :
    evM3 ∈ [evM3] ∧ (∀ e ∈ [evM3], e.slug = JScalar.str "m3" → e = evM3) ∧
      evCross ∉ [evM3] :=
  @c10_shared_key_space 0 2 [] [] [] mMarket3 mCross (JScalar.str "m3") evM3 evCross [evM3]
    rfl rfl (fun hc => absurd (congrArg Event.volume hc) (by decide))
    (fun m' hm' => absurd hm' (List.not_mem_nil m')) rfl

theorem le_foldl_max (l : List ℚ) (a : ℚ) : a ≤ l.foldl max a := by
  induction l generalizing a with
  | nil => exact le_refl a
  | cons x xs ih => exact le_trans (le_max_left a x) (ih (max a x))

theorem foldl_max_le {l : List ℚ} {a c : ℚ} (ha : a ≤ c) (hl : ∀ p ∈ l, p ≤ c) :
    l.foldl max a ≤ c := by
  induction l generalizing a with
  | nil => exact ha
  | cons x xs ih =>
    exact ih (max_le ha (hl x (List.mem_cons_self _ _)))
      (fun p hp => hl p (List.mem_cons_of_mem _ hp))

theorem mem_yesPrices {m : SMarket} {p : ℚ} (h : p ∈ yesPrices m) :
    p ∈ m.outcomePrices := by
  unfold yesPrices at h
  split at h
  · obtain ⟨⟨lab, q⟩, hmem, rfl⟩ := List.mem_map.mp h
    exact (List.of_mem_zip (List.mem_filter.mp hmem).1).2
  · simp at h

theorem mem_foldl_yesPrices {l : List SMarket} {acc : List ℚ} {x : ℚ}
    (h : x ∈ l.foldl (fun acc m => acc ++ yesPrices m) acc) :
    x ∈ acc ∨ ∃ m ∈ l, x ∈ yesPrices m := by
  induction l generalizing acc with
  | nil => exact Or.inl h
  | cons m ms ih =>
    rcases ih h with h' | ⟨m', hm', hx⟩
    · rcases List.mem_append.mp h' with h'' | h''
      · exact Or.inl h''
      · exact Or.inr ⟨m, List.mem_cons_self _ _, h''⟩
    · exact Or.inr ⟨m', List.mem_cons_of_mem _ hm', hx⟩

/-- C4: the scorer maps an event whose prices all lie in the unit interval
to a score in [0, 1]; an event with no contributing market scores 0, and a
single-market event scores the maximum of its price sequence (0 when the
price sequence is empty, by `maxPrice`). -/
theorem c4_score_contract :
    (∀ e : SEvent, (∀ m ∈ e.markets, ∀ p ∈ m.outcomePrices, 0 ≤ p ∧ p ≤ 1) →
      0 ≤ score e ∧ score e ≤ 1)
    ∧ (∀ e : SEvent, e.markets = [] → score e = 0)
    ∧ (∀ (e : SEvent) (m : SMarket), e.markets = [m] →
      score e = maxPrice m.outcomePrices) := by
  refine ⟨?_, ?_, ?_⟩
  · intro e hb
    rcases he : e.markets with _ | ⟨m, rest⟩
    · simp only [score, he]
      norm_num
    · rcases rest with _ | ⟨m2, rest2⟩
      · simp only [score, he]
        have hbm : ∀ q ∈ m.outcomePrices, 0 ≤ q ∧ q ≤ 1 :=
          hb m (by rw [he]; exact List.mem_cons_self _ _)
        rcases hp : m.outcomePrices with _ | ⟨p, ps⟩
        · simp [maxPrice]
        · have hpm : p ∈ m.outcomePrices := by
            rw [hp]
            exact List.mem_cons_self _ _
          simp only [maxPrice]
          constructor
          · exact le_trans (hbm p hpm).1 (le_foldl_max ps p)
          · exact foldl_max_le (hbm p hpm).2
              (fun q hq => (hbm q (by rw [hp]; exact List.mem_cons_of_mem _ hq)).2)
      · simp only [score, he]
        constructor
        · exact le_foldl_max _ 0
        · refine foldl_max_le (by norm_num) ?_
          intro q hq
          rcases mem_foldl_yesPrices hq with h0 | ⟨m', hm', hy⟩
          · simp at h0
          · exact (hb m' (by rw [he]; exact hm') q (mem_yesPrices hy)).2
  · intro e he
    simp [score, he]
  · intro e m he
    simp [score, he]

/-- C4 witness: a single-market event priced [0, 1] scores within [0, 1],
and indeed exactly `maxPrice` of its price sequence. -/
theorem c4_score_contract_witness :
    (0 ≤ score sEventSingle ∧ score sEventSingle ≤ 1) ∧
      score sEventSingle = maxPrice sMarketYesNo.outcomePrices := by
  constructor
  · exact c4_score_contract.1 sEventSingle (by decide)
  · exact c4_score_contract.2.2 sEventSingle sMarketYesNo rfl

end Polymarket
